import Mathlib

/-!
Verification of the probabilistic record-linkage pipeline in
`src/record_linkage/demo/probablistic_match.py`.

The script builds two synthetic person tables (df_a and a noised copy df_b),
runs a deterministic equi-join (pandas merge on all four fields), blocks on
zipcode with recordlinkage's Index.block, computes per-pair similarity
features (Jaro-Winkler for names, a Gaussian kernel for birth year, an exact
indicator for zipcode), fits an unsupervised Fellegi-Sunter style mixture
model (ECMClassifier) and sweeps posterior thresholds and posterior bins.

Tables are embedded as lists of `Person` rows; the pandas/recordlinkage
joins are embedded as executable Lean functions; the numpy random draws of
the noising step are abstracted as an arbitrary `NoisePlan`; the
third-party similarity kernels and the mixture-model posterior, whose
sources are not part of this repository, are modelled from the spec and
from the standard published algorithms they name.
-/

namespace RecordLinkage

/-- A row of the synthetic person tables (columns of df_a / df_b). -/
structure Person where
  id : ℕ
  firstname : List Char
  lastname : List Char
  birthyear : ℤ
  zipcode : ℤ
deriving DecidableEq, Repr

/-- The four non-id columns that the script joins and compares on. -/
inductive MatchField where
  | firstname
  | lastname
  | birthyear
  | zipcode
deriving DecidableEq, Repr

/-- A field value is either text or an integer. -/
abbrev FieldVal := (List Char) ⊕ ℤ

/-- Column access for a row, used as the join / blocking key. -/
def fieldVal : MatchField → Person → FieldVal
  | MatchField.firstname, r => Sum.inl r.firstname
  | MatchField.lastname, r => Sum.inl r.lastname
  | MatchField.birthyear, r => Sum.inr r.birthyear
  | MatchField.zipcode, r => Sum.inr r.zipcode

/-- Insert a row into the bucket of its key (hash-join build phase, as a
pandas merge / recordlinkage block performs on the right table). -/
def insertGroup (k : FieldVal) (r : Person) :
    List (FieldVal × List Person) → List (FieldVal × List Person)
  | [] => [(k, [r])]
  | g :: gs => if g.1 = k then (g.1, g.2 ++ [r]) :: gs else g :: insertGroup k r gs

/-- Group the right table by key (hash-join build phase). -/
def groupByKey (key : Person → FieldVal) (rows : List Person) :
    List (FieldVal × List Person) :=
  rows.foldl (fun gs r => insertGroup (key r) r gs) []

/-- Probe phase: all rows whose key equals `k`. -/
def lookupGroup (k : FieldVal) (gs : List (FieldVal × List Person)) : List Person :=
  match gs.find? (fun g => decide (g.1 = k)) with
  | some g => g.2
  | none => []

/-- `indexer.block(field); indexer.index(df_a, df_b)`: the candidate pairs
produced by blocking both tables on one field, realised as a hash join. -/
def blockPairs (f : MatchField) (A B : List Person) : List (Person × Person) :=
  let gs := groupByKey (fieldVal f) B
  A.flatMap (fun a => (lookupGroup (fieldVal f a) gs).map (fun b => (a, b)))

/-- `df_a.merge(df_b, on=fs, how="inner")`: the deterministic equi-join on a
list of fields. -/
def eqJoin (fs : List MatchField) (A B : List Person) : List (Person × Person) :=
  A.flatMap (fun a =>
    ((B.filter (fun b => fs.all (fun f => decide (fieldVal f a = fieldVal f b)))).map
      (fun b => (a, b))))

/-- `det_matches`: the exact match on all four non-id columns (script step 3). -/
def detMatches (A B : List Person) : List (Person × Person) :=
  eqJoin [MatchField.firstname, MatchField.lastname, MatchField.birthyear,
    MatchField.zipcode] A B

/-- Character of a string at an index (strings embedded as `List Char`). -/
def chAt (s : List Char) (i : ℕ) : Char := s.getD i ' '

/-- Modelled from the spec: the Jaro matching window.  The library backend of
`compare.string(..., method="jarowinkler")` is not part of this repository;
it is modelled as the standard published Jaro-Winkler algorithm.  For a
left-string index `i`, the admissible right-string indices are those within
`w = max(len1, len2) / 2 - 1` of `i` (clamped at 0), listed in increasing
order. -/
def jaroWindow (w n2 i : ℕ) : List ℕ :=
  (List.range n2).filter (fun j => decide (i ≤ j + w) && decide (j ≤ i + w))

/-- Has a right-string index already been matched (flagged)? -/
def usedSnd (ps : List (ℕ × ℕ)) (j : ℕ) : Bool :=
  ps.any (fun p => decide (p.2 = j))

/-- One iteration of the greedy Jaro matching loop: left index `i` is paired
with the smallest unflagged right index inside its window holding an equal
character, if any. -/
def jaroStep (s1 s2 : List Char) (w : ℕ) (ps : List (ℕ × ℕ)) (i : ℕ) :
    List (ℕ × ℕ) :=
  match (jaroWindow w s2.length i).find?
      (fun j => !(usedSnd ps j) && decide (chAt s2 j = chAt s1 i)) with
  | some j => ps ++ [(i, j)]
  | none => ps

/-- The greedy Jaro matching: all left indices in increasing order, each
matched at most once against an unflagged right index. -/
def jaroPairs (s1 s2 : List Char) : List (ℕ × ℕ) :=
  (List.range s1.length).foldl (jaroStep s1 s2 (max s1.length s2.length / 2 - 1)) []

/-- Ordered insertion into a sorted list of naturals. -/
def insertNat (x : ℕ) : List ℕ → List ℕ
  | [] => [x]
  | y :: ys => if x ≤ y then x :: y :: ys else y :: insertNat x ys

/-- Insertion sort; used to read matched indices off in flag-array order. -/
def insSort : List ℕ → List ℕ
  | [] => []
  | x :: xs => insertNat x (insSort xs)

/-- Number of positions at which two character sequences disagree. -/
def countMismatch (l1 l2 : List Char) : ℕ :=
  (l1.zip l2).countP (fun p => !(decide (p.1 = p.2)))

/-- Modelled from the spec: the Jaro similarity of the standard algorithm,
over exact rationals.  `m` is the greedy match count; the transposition
count is half the number of disagreeing positions between the two matched
character sequences read in index order; two empty strings score 1. -/
def jaroSim (s1 s2 : List Char) : ℚ :=
  if s1.length = 0 ∧ s2.length = 0 then 1 else
  let ps := jaroPairs s1 s2
  let m := ps.length
  if m = 0 then 0 else
  let mi := insSort (ps.map Prod.fst)
  let mj := insSort (ps.map Prod.snd)
  let t := countMismatch (mi.map (chAt s1)) (mj.map (chAt s2)) / 2
  ((m : ℚ) / s1.length + (m : ℚ) / s2.length + ((m - t : ℕ) : ℚ) / m) / 3

/-- Length of the common prefix of two strings. -/
def commonPrefixLen : List Char → List Char → ℕ
  | a :: s, b :: t => if a = b then 1 + commonPrefixLen s t else 0
  | _, _ => 0

/-- Modelled from the spec: Jaro-Winkler similarity — the Jaro score boosted
by the shared prefix (capped at 4) when the Jaro score exceeds 0.7. -/
def jaroWinkler (s1 s2 : List Char) : ℚ :=
  let j := jaroSim s1 s2
  if 7/10 < j then j + (min (commonPrefixLen s1 s2) 4 : ℚ) * (1/10) * (1 - j)
  else j

/-- Modelled from the spec: the Gaussian-kernel numeric similarity of
`compare.numeric(..., method="gauss", offset, scale)`:
`2 ^ (-(d / scale)^2)` where `d` is the absolute difference reduced by the
offset and clamped at 0. -/
noncomputable def gaussSim (offset scale : ℚ) (y1 y2 : ℤ) : ℝ :=
  let d : ℚ := max (|(y1 : ℚ) - (y2 : ℚ)| - offset) 0
  (2 : ℝ) ^ (-(((d / scale : ℚ) : ℝ) ^ (2 : ℕ)))

/-- The birth-year similarity as instantiated by the script
(`offset=0, scale=2`). -/
noncomputable def birthyearSim (y1 y2 : ℤ) : ℝ := gaussSim 0 2 y1 y2

/-- `compare.exact`: the exact agreement indicator. -/
def exactSim (z1 z2 : ℤ) : ℚ := if z1 = z2 then 1 else 0

/-- Proof scaffolding: the order-preserving band matching of two increasing
index lists; heads within `w` of each other are matched, otherwise the
smaller head is discarded. -/
def twoPointer (w : ℕ) : List ℕ → List ℕ → List (ℕ × ℕ)
  | [], _ => []
  | _ :: _, [] => []
  | a :: as, b :: bs =>
    if a ≤ b + w ∧ b ≤ a + w then (a, b) :: twoPointer w as bs
    else if b + w < a then twoPointer w (a :: as) bs
    else twoPointer w as (b :: bs)
termination_by l1 l2 => l1.length + l2.length

/-- Proof scaffolding: the optional extra pair contributed by a new left
index `k`. -/
def tpExt (k : ℕ) (o : Option ℕ) : List (ℕ × ℕ) :=
  match o with
  | some j => [(k, j)]
  | none => []

/-- Positions of a character in a string, in increasing order. -/
def posChar (s : List Char) (c : Char) : List ℕ :=
  (List.range s.length).filter (fun i => decide (chAt s i = c))

/-- The matched pairs whose left character is `c`. -/
def classPairs (s1 : List Char) (c : Char) (ps : List (ℕ × ℕ)) : List (ℕ × ℕ) :=
  ps.filter (fun p => decide (chAt s1 p.1 = c))

/-- The greedy Jaro matching truncated to the first `k` left indices. -/
def procUpto (s1 s2 : List Char) (w k : ℕ) : List (ℕ × ℕ) :=
  (List.range k).foldl (jaroStep s1 s2 w) []

/-- The random draws of the noising step (script step 2), abstracted: which
rows get each kind of noise, which character positions are overwritten with
which letters, and the birth-year shift, all as arbitrary functions of the
row index.  The numpy generator of the source is one particular plan. -/
structure NoisePlan where
  modFirstname : ℕ → Bool
  modLastname : ℕ → Bool
  modBirthyear : ℕ → Bool
  typoFirstname : ℕ → List (ℕ × Char)
  typoLastname : ℕ → List (ℕ × Char)
  yearShift : ℕ → ℤ

/-- Overwrite the listed positions of a string with the given characters
(the inner loop of the typo injection). -/
def applyTypos (subs : List (ℕ × Char)) (s : List Char) : List Char :=
  subs.foldl (fun t pc => t.set pc.1 pc.2) s

/-- In-place update of one row of a table (`df.loc[i, col] = value`). -/
def modifyRow (rows : List Person) (i : ℕ) (f : Person → Person) : List Person :=
  match rows[i]? with
  | some r => rows.set i (f r)
  | none => rows

/-- The mutable state of script step 2: both tables; `df_b` starts as a copy
of `df_a` and the noising loops write only into `df_b`. -/
structure Tables where
  dfA : List Person
  dfB : List Person

/-- Rows selected by a noise mask (`np.where(mask)[0]`). -/
def idxWhere (mask : ℕ → Bool) (n : ℕ) : List ℕ :=
  (List.range n).filter mask

/-- Loop body 2A: inject a typo into the first name of row `i` of df_b. -/
def stepFirstname (plan : NoisePlan) (st : Tables) (i : ℕ) : Tables :=
  { st with dfB := modifyRow st.dfB i (fun r =>
      { r with firstname := applyTypos (plan.typoFirstname i) r.firstname }) }

/-- Loop body 2B: inject a typo into the last name of row `i` of df_b. -/
def stepLastname (plan : NoisePlan) (st : Tables) (i : ℕ) : Tables :=
  { st with dfB := modifyRow st.dfB i (fun r =>
      { r with lastname := applyTypos (plan.typoLastname i) r.lastname }) }

/-- Loop body 2C: shift the birth year of row `i` of df_b. -/
def stepBirthyear (plan : NoisePlan) (st : Tables) (i : ℕ) : Tables :=
  { st with dfB := modifyRow st.dfB i (fun r =>
      { r with birthyear := r.birthyear + plan.yearShift i }) }

/-- The whole noising step: the three loops 2A, 2B, 2C in script order. -/
def noiseAll (plan : NoisePlan) (st : Tables) : Tables :=
  let st1 := (idxWhere plan.modFirstname st.dfB.length).foldl (stepFirstname plan) st
  let st2 := (idxWhere plan.modLastname st1.dfB.length).foldl (stepLastname plan) st1
  (idxWhere plan.modBirthyear st2.dfB.length).foldl (stepBirthyear plan) st2

/-- Script step 2 end to end: `df_b = df_a.copy()` followed by the noising
loops. -/
def buildTables (plan : NoisePlan) (A : List Person) : Tables :=
  noiseAll plan { dfA := A, dfB := A }

/-- One row of the comparison-vector table (one candidate pair). -/
structure FeatRow where
  firstnameSim : ℚ
  lastnameSim : ℚ
  birthyearSim : ℝ
  zipcodeExact : ℚ

/-- The comparison-vector table: column labels plus one row per pair. -/
structure FeatTable where
  labels : List String
  rows : List FeatRow

/-- The column labels declared by the four `compare.*` calls, in call order. -/
def featLabels : List String :=
  ["firstname_sim", "lastname_sim", "birthyear_sim", "zipcode_exact"]

/-- `features = compare.compute(candidate_pairs, df_a, df_b)`: one similarity
vector per candidate pair, columns in the declared order. -/
noncomputable def computeFeatures (pairs : List (Person × Person)) : FeatTable :=
  { labels := featLabels
    rows := pairs.map (fun p =>
      { firstnameSim := jaroWinkler p.1.firstname p.2.firstname
        lastnameSim := jaroWinkler p.1.lastname p.2.lastname
        birthyearSim := birthyearSim p.1.birthyear p.2.birthyear
        zipcodeExact := exactSim p.1.zipcode p.2.zipcode }) }

/-- Likelihood of a binary agreement vector under per-field Bernoulli
parameters (the class-conditional of a naive-Bayes mixture component). -/
def classLik (probs : List ℚ) (gamma : List Bool) : ℚ :=
  ((probs.zip gamma).map (fun pg => if pg.2 then pg.1 else 1 - pg.1)).prod

/-- Modelled from the spec: the posterior match probability exposed by the
fitted unsupervised estimator (`ecm.prob`).  The ECMClassifier source is not
part of this repository; per the spec it is a two-class Fellegi-Sunter
mixture, whose posterior for an agreement pattern is the match-class joint
mass over the total mass.  `p` is the match-class weight, `m` and `u` the
per-field agreement parameters of the two classes. -/
def ecmPosterior (p : ℚ) (m u : List ℚ) (gamma : List Bool) : ℚ :=
  let num := p * classLik m gamma
  let den := num + (1 - p) * classLik u gamma
  num / den

/-- The posterior scoring stage: one probability per candidate pair. -/
def scorePairs (p : ℚ) (m u : List ℚ) (gammas : List (List Bool)) : List ℚ :=
  gammas.map (ecmPosterior p m u)

/-- `np.arange(0, 1.01, 0.01)`: the 101 thresholds 0, 0.01, ..., 1. -/
def thresholdGrid : List ℚ :=
  (List.range 101).map (fun k => (k : ℚ) / 100)

/-- Script step 5: for every grid threshold, how many candidate pairs have
posterior at or above it (`(posterior >= th).sum()`). -/
def countOfMatches (post : List ℚ) : List (ℚ × ℕ) :=
  thresholdGrid.map (fun th => (th, post.countP (fun x => decide (th ≤ x))))

/-- Levenshtein edit distance (rapidfuzz `Levenshtein.distance`). -/
def lev : List Char → List Char → ℕ
  | [], t => t.length
  | s, [] => s.length
  | a :: s, b :: t =>
    if a = b then lev s t
    else 1 + min (lev s t) (min (lev (a :: s) t) (lev s (b :: t)))
termination_by s t => s.length + t.length

/-- Mean of a list of rationals; the empty mean is the undefined sentinel
(pandas surfaces NaN for the mean of an empty group). -/
def meanQ (l : List ℚ) : Option ℚ :=
  if l.length = 0 then none else some (l.sum / l.length)

/-- The ten posterior-bin labels of script step 6. -/
def binLabels : List String :=
  ["0.0-0.1", "0.1-0.2", "0.2-0.3", "0.3-0.4", "0.4-0.5",
   "0.5-0.6", "0.6-0.7", "0.7-0.8", "0.8-0.9", "0.9-1.0"]

/-- `pd.cut(..., right=True)` membership in bin `k`: posterior in
`(k/10, (k+1)/10]`. -/
def inBin (k : ℕ) (x : ℚ) : Bool :=
  decide ((k : ℚ) / 10 < x) && decide (x ≤ ((k : ℚ) + 1) / 10)

/-- `matches_low`: pairs kept by the very low cutoff `posterior > 0.000001`. -/
def matchesLow (rows : List (ℚ × Person × Person)) : List (ℚ × Person × Person) :=
  rows.filter (fun r => decide (1 / 1000000 < r.1))

/-- One row of the posterior-bin diagnostic table. -/
structure BinRow where
  label : String
  meanFirst : Option ℚ
  meanLast : Option ℚ
  meanBirth : Option ℚ
  n : ℕ
deriving DecidableEq, Repr

/-- Default bin row used for indexed access into the diagnostic table. -/
def defaultBinRow : BinRow :=
  { label := "", meanFirst := none, meanLast := none, meanBirth := none, n := 0 }

/-- The diagnostic row of an empty posterior bin: the bin label, undefined
means, zero count. -/
def emptyBinRow (k : ℕ) : BinRow :=
  { label := binLabels.getD k "", meanFirst := none, meanLast := none,
    meanBirth := none, n := 0 }

/-- `avg_dist_by_bin`: per posterior bin, the mean Levenshtein distances of
the two name fields, the mean absolute birth-year difference, and the pair
count.  `groupby(observed=False)` emits one row per bin label even for
empty bins; the empty mean is the undefined sentinel. -/
def avgDistByBin (rows : List (ℚ × Person × Person)) : List BinRow :=
  (List.range 10).map (fun k =>
    let members := (matchesLow rows).filter (fun r => inBin k r.1)
    { label := binLabels.getD k ""
      meanFirst := meanQ (members.map (fun r => (lev r.2.1.firstname r.2.2.firstname : ℚ)))
      meanLast := meanQ (members.map (fun r => (lev r.2.1.lastname r.2.2.lastname : ℚ)))
      meanBirth := meanQ (members.map (fun r => ((|r.2.1.birthyear - r.2.2.birthyear| : ℤ) : ℚ)))
      n := members.length })

/-- Concrete one-row fixture used by witnesses. -/
def wPerson : Person :=
  { id := 1, firstname := ['a'], lastname := ['b'], birthyear := 1990,
    zipcode := 12345 }

/-- Concrete one-row table used by witnesses. -/
def wTable : List Person := [wPerson]

/-- Concrete noise plan used by witnesses: every row gets every noise kind. -/
def wPlan : NoisePlan :=
  { modFirstname := fun _ => true
    modLastname := fun _ => true
    modBirthyear := fun _ => true
    typoFirstname := fun _ => [(0, 'x')]
    typoLastname := fun _ => [(0, 'y')]
    yearShift := fun _ => 1 }

/-! Join infrastructure lemmas. -/

theorem lookupGroup_nil (k : FieldVal) : lookupGroup k [] = [] := rfl

theorem lookupGroup_cons (k : FieldVal) (g : FieldVal × List Person)
    (gs : List (FieldVal × List Person)) :
    lookupGroup k (g :: gs) = if g.1 = k then g.2 else lookupGroup k gs := by
  by_cases h : g.1 = k
  · simp [lookupGroup, List.find?_cons, h]
  · simp [lookupGroup, List.find?_cons, h]

theorem lookupGroup_insertGroup (k k0 : FieldVal) (r : Person)
    (gs : List (FieldVal × List Person)) :
    lookupGroup k (insertGroup k0 r gs) =
      if k0 = k then lookupGroup k gs ++ [r] else lookupGroup k gs := by
  induction gs with
  | nil =>
    by_cases h : k0 = k <;> simp [insertGroup, lookupGroup_cons, lookupGroup_nil, h]
  | cons g gs ih =>
    by_cases h1 : g.1 = k0
    · by_cases h2 : k0 = k
      · simp [insertGroup, h1, lookupGroup_cons, h1.trans h2, h2]
      · have : ¬ g.1 = k := fun hc => h2 (h1 ▸ hc)
        simp [insertGroup, h1, lookupGroup_cons, this, h2]
    · by_cases h2 : g.1 = k
      · have h3 : ¬ k0 = k := fun hc => h1 (h2.trans hc.symm)
        have h4 : ¬ k = k0 := fun hc => h3 hc.symm
        simp [insertGroup, h1, lookupGroup_cons, h2, h3, h4]
      · simp [insertGroup, h1, lookupGroup_cons, h2, ih]

theorem lookupGroup_groupByKey (key : Person → FieldVal) (B : List Person)
    (k : FieldVal) :
    lookupGroup k (groupByKey key B) = B.filter (fun b => decide (key b = k)) := by
  induction B using List.reverseRecOn with
  | nil => rfl
  | append_singleton B b ih =>
    have hg : groupByKey key (B ++ [b]) = insertGroup (key b) b (groupByKey key B) := by
      simp [groupByKey, List.foldl_append]
    rw [hg, lookupGroup_insertGroup, ih, List.filter_append]
    by_cases h : key b = k <;> simp [h]

theorem mem_blockPairs (f : MatchField) (A B : List Person) (a b : Person) :
    (a, b) ∈ blockPairs f A B ↔
      a ∈ A ∧ b ∈ B ∧ fieldVal f a = fieldVal f b := by
  simp only [blockPairs, List.mem_flatMap, List.mem_map,
    lookupGroup_groupByKey, List.mem_filter]
  constructor
  · rintro ⟨x, hx, y, ⟨hyB, hyk⟩, hxy⟩
    obtain ⟨rfl, rfl⟩ := Prod.mk.injEq .. ▸ hxy
    exact ⟨hx, hyB, (decide_eq_true_eq.mp hyk).symm⟩
  · rintro ⟨ha, hb, hk⟩
    exact ⟨a, ha, b, ⟨hb, decide_eq_true_eq.mpr hk.symm⟩, rfl⟩

theorem blockPairs_length_le (f : MatchField) (A B : List Person) :
    (blockPairs f A B).length ≤ A.length * B.length := by
  have : (blockPairs f A B).length =
      (A.map (fun a => (lookupGroup (fieldVal f a)
        (groupByKey (fieldVal f) B)).length)).sum := by
    simp [blockPairs, List.length_flatMap, Function.comp_def]
  rw [this]
  have hb : ∀ x ∈ A.map (fun a => (lookupGroup (fieldVal f a)
      (groupByKey (fieldVal f) B)).length), x ≤ B.length := by
    intro x hx
    obtain ⟨a, _, rfl⟩ := List.mem_map.mp hx
    rw [lookupGroup_groupByKey]
    exact List.length_filter_le _ _
  calc (A.map _).sum ≤ (A.map (fun a => (lookupGroup (fieldVal f a)
        (groupByKey (fieldVal f) B)).length)).length • B.length :=
        List.sum_le_card_nsmul _ _ hb
    _ = A.length * B.length := by rw [List.length_map, smul_eq_mul]

theorem mem_eqJoin (fs : List MatchField) (A B : List Person) (a b : Person) :
    (a, b) ∈ eqJoin fs A B ↔
      a ∈ A ∧ b ∈ B ∧ ∀ f ∈ fs, fieldVal f a = fieldVal f b := by
  simp only [eqJoin, List.mem_flatMap, List.mem_map, List.mem_filter]
  constructor
  · rintro ⟨x, hx, y, ⟨hyB, hyk⟩, hxy⟩
    obtain ⟨rfl, rfl⟩ := Prod.mk.injEq .. ▸ hxy
    refine ⟨hx, hyB, ?_⟩
    intro f hf
    exact decide_eq_true_eq.mp (List.all_eq_true.mp hyk f hf)
  · rintro ⟨ha, hb, hk⟩
    refine ⟨a, ha, b, ⟨hb, List.all_eq_true.mpr fun f hf => decide_eq_true_eq.mpr (hk f hf)⟩, rfl⟩

/-! Noising-step lemmas. -/

/-- Default row used for indexed access. -/
def defaultPerson : Person :=
  { id := 0, firstname := [], lastname := [], birthyear := 0, zipcode := 0 }

theorem set_self_of_getElem? {α : Type} (l : List α) (i : ℕ) (x : α)
    (h : l[i]? = some x) : l.set i x = l := by
  induction l generalizing i with
  | nil => simp at h
  | cons a t ih =>
    cases i with
    | zero => simp at h; simp [h]
    | succ n => simp only [List.getElem?_cons_succ] at h; simp [ih n h]

theorem modifyRow_map_eq (rows : List Person) (i : ℕ) (f : Person → Person)
    {β : Type} (g : Person → β) (hg : ∀ r, g (f r) = g r) :
    (modifyRow rows i f).map g = rows.map g := by
  unfold modifyRow
  cases h : rows[i]? with
  | none => rfl
  | some r =>
    rw [List.map_set, hg]
    exact set_self_of_getElem? _ _ _ (by simp [h])

theorem foldl_dfA_eq (step : Tables → ℕ → Tables)
    (hstep : ∀ st i, (step st i).dfA = st.dfA) :
    ∀ (l : List ℕ) (st : Tables), (l.foldl step st).dfA = st.dfA := by
  intro l
  induction l with
  | nil => intro st; rfl
  | cons i l ih => intro st; rw [List.foldl_cons, ih, hstep]

theorem foldl_dfB_map_eq (step : Tables → ℕ → Tables) {β : Type}
    (g : Person → β)
    (hstep : ∀ st i, (step st i).dfB.map g = st.dfB.map g) :
    ∀ (l : List ℕ) (st : Tables), (l.foldl step st).dfB.map g = st.dfB.map g := by
  intro l
  induction l with
  | nil => intro st; rfl
  | cons i l ih => intro st; rw [List.foldl_cons, ih, hstep]

theorem noiseAll_dfA (plan : NoisePlan) (st : Tables) :
    (noiseAll plan st).dfA = st.dfA := by
  unfold noiseAll
  rw [foldl_dfA_eq (stepBirthyear plan) (fun _ _ => rfl),
      foldl_dfA_eq (stepLastname plan) (fun _ _ => rfl),
      foldl_dfA_eq (stepFirstname plan) (fun _ _ => rfl)]

theorem noiseAll_dfB_map (plan : NoisePlan) (st : Tables) {β : Type}
    (g : Person → β)
    (hf : ∀ (subs : List (ℕ × Char)) (r : Person),
      g { r with firstname := applyTypos subs r.firstname } = g r)
    (hl : ∀ (subs : List (ℕ × Char)) (r : Person),
      g { r with lastname := applyTypos subs r.lastname } = g r)
    (hy : ∀ (d : ℤ) (r : Person), g { r with birthyear := r.birthyear + d } = g r) :
    (noiseAll plan st).dfB.map g = st.dfB.map g := by
  unfold noiseAll
  rw [foldl_dfB_map_eq (stepBirthyear plan) g
        (fun st i => modifyRow_map_eq _ _ _ _ (hy (plan.yearShift i))),
      foldl_dfB_map_eq (stepLastname plan) g
        (fun st i => modifyRow_map_eq _ _ _ _ (hl (plan.typoLastname i))),
      foldl_dfB_map_eq (stepFirstname plan) g
        (fun st i => modifyRow_map_eq _ _ _ _ (hf (plan.typoFirstname i)))]

theorem buildTables_dfA (plan : NoisePlan) (A : List Person) :
    (buildTables plan A).dfA = A :=
  noiseAll_dfA plan _

theorem buildTables_map_zipcode (plan : NoisePlan) (A : List Person) :
    (buildTables plan A).dfB.map Person.zipcode = A.map Person.zipcode :=
  noiseAll_dfB_map plan _ Person.zipcode (fun _ _ => rfl) (fun _ _ => rfl)
    (fun _ _ => rfl)

theorem buildTables_map_id (plan : NoisePlan) (A : List Person) :
    (buildTables plan A).dfB.map Person.id = A.map Person.id :=
  noiseAll_dfB_map plan _ Person.id (fun _ _ => rfl) (fun _ _ => rfl)
    (fun _ _ => rfl)

theorem buildTables_length (plan : NoisePlan) (A : List Person) :
    (buildTables plan A).dfB.length = A.length := by
  have := congrArg List.length (buildTables_map_zipcode plan A)
  simpa using this

theorem buildTables_zipcode_at (plan : NoisePlan) (A : List Person) (i : ℕ) :
    ((buildTables plan A).dfB.getD i defaultPerson).zipcode =
      (A.getD i defaultPerson).zipcode := by
  have := congrArg (fun l => l.getD i (defaultPerson.zipcode))
    (buildTables_map_zipcode plan A)
  simpa [List.getD_map] using this

theorem buildTables_id_at (plan : NoisePlan) (A : List Person) (i : ℕ) :
    ((buildTables plan A).dfB.getD i defaultPerson).id =
      (A.getD i defaultPerson).id := by
  have := congrArg (fun l => l.getD i (defaultPerson.id))
    (buildTables_map_id plan A)
  simpa [List.getD_map] using this

/-- Claim C1: for every two record collections and a blocking key, the
blocking indexer returns exactly the set of (recordA, recordB) pairs whose
blocking-key values are equal — every pair sharing the key value is a
candidate pair, and no pair with differing key values ever is. -/
theorem claim_C1_blocking_exact (f : MatchField) (A B : List Person)
    (a b : Person) :
    (a, b) ∈ blockPairs f A B ↔ a ∈ A ∧ b ∈ B ∧ fieldVal f a = fieldVal f b :=
  mem_blockPairs f A B a b

/-- Claim C2: the candidate-pair count after blocking is at most the full
cross-product count, and every exact-match (equi-join) pair is a blocked
candidate pair whenever the blocking key is one of the join fields. -/
theorem claim_C2_blocking_superset :
    (∀ (f : MatchField) (A B : List Person),
      (blockPairs f A B).length ≤ A.length * B.length) ∧
    (∀ (fs : List MatchField) (f : MatchField) (A B : List Person) (a b : Person),
      f ∈ fs → (a, b) ∈ eqJoin fs A B → (a, b) ∈ blockPairs f A B) ∧
    (∀ (A B : List Person) (a b : Person),
      (a, b) ∈ detMatches A B → (a, b) ∈ blockPairs MatchField.zipcode A B) := by
  have hsub : ∀ (fs : List MatchField) (f : MatchField) (A B : List Person)
      (a b : Person), f ∈ fs → (a, b) ∈ eqJoin fs A B →
      (a, b) ∈ blockPairs f A B := by
    intro fs f A B a b hf hj
    obtain ⟨ha, hb, hall⟩ := (mem_eqJoin fs A B a b).mp hj
    exact (mem_blockPairs f A B a b).mpr ⟨ha, hb, hall f hf⟩
  refine ⟨blockPairs_length_le, hsub, ?_⟩
  intro A B a b hj
  exact hsub _ MatchField.zipcode A B a b (by simp) hj

/-- Witness for claim C2 at a concrete one-row instance: blocking on zipcode
contains the four-field exact match. -/
theorem claim_C2_witness :
    MatchField.zipcode ∈ [MatchField.firstname, MatchField.lastname,
      MatchField.birthyear, MatchField.zipcode] ∧
    (wPerson, wPerson) ∈ eqJoin [MatchField.firstname, MatchField.lastname,
      MatchField.birthyear, MatchField.zipcode] wTable wTable ∧
    (wPerson, wPerson) ∈ blockPairs MatchField.zipcode wTable wTable :=
  ⟨by decide, by decide,
    claim_C2_blocking_superset.2.1
      [MatchField.firstname, MatchField.lastname, MatchField.birthyear,
        MatchField.zipcode]
      MatchField.zipcode wTable wTable wPerson wPerson (by decide) (by decide)⟩

/-- Claim C5: the noising step writes only into the copied table df_b; after
the first-name loop, the last-name loop and the birth-year loop all
complete, df_a is exactly what it was before the noising step. -/
theorem claim_C5_noising_frame :
    (∀ (plan : NoisePlan) (st : Tables), (noiseAll plan st).dfA = st.dfA) ∧
    (∀ (plan : NoisePlan) (A : List Person), (buildTables plan A).dfA = A) :=
  ⟨noiseAll_dfA, buildTables_dfA⟩

/-- Claim C10: no noise plan ever modifies zipcode (nor id), so each row of
df_b agrees with its df_a row on zipcode, and the true pair of row `i` of
df_a and row `i` of df_b always survives blocking on zipcode. -/
theorem claim_C10_zipcode_untouched (plan : NoisePlan) (A : List Person)
    (i : ℕ) (h : i < A.length) :
    ((buildTables plan A).dfB.getD i defaultPerson).zipcode =
      (A.getD i defaultPerson).zipcode ∧
    ((buildTables plan A).dfB.getD i defaultPerson).id =
      (A.getD i defaultPerson).id ∧
    (A.getD i defaultPerson, (buildTables plan A).dfB.getD i defaultPerson) ∈
      blockPairs MatchField.zipcode A (buildTables plan A).dfB := by
  have hz := buildTables_zipcode_at plan A i
  have hid := buildTables_id_at plan A i
  refine ⟨hz, hid, ?_⟩
  have hlen : i < (buildTables plan A).dfB.length := by
    rw [buildTables_length]; exact h
  have hmemA : A.getD i defaultPerson ∈ A := by
    rw [List.getD_eq_getElem _ _ h]; exact List.getElem_mem h
  have hmemB : (buildTables plan A).dfB.getD i defaultPerson ∈
      (buildTables plan A).dfB := by
    rw [List.getD_eq_getElem _ _ hlen]; exact List.getElem_mem hlen
  refine (mem_blockPairs _ _ _ _ _).mpr ⟨hmemA, hmemB, ?_⟩
  show Sum.inr (A.getD i defaultPerson).zipcode =
    Sum.inr ((buildTables plan A).dfB.getD i defaultPerson).zipcode
  rw [hz]

/-- Witness for claim C10 at a concrete one-row table under a plan that
noises every field of every row. -/
theorem claim_C10_witness :
    0 < wTable.length ∧
    (((buildTables wPlan wTable).dfB.getD 0 defaultPerson).zipcode =
      (wTable.getD 0 defaultPerson).zipcode ∧
    ((buildTables wPlan wTable).dfB.getD 0 defaultPerson).id =
      (wTable.getD 0 defaultPerson).id ∧
    (wTable.getD 0 defaultPerson,
      (buildTables wPlan wTable).dfB.getD 0 defaultPerson) ∈
      blockPairs MatchField.zipcode wTable (buildTables wPlan wTable).dfB) :=
  ⟨by decide, claim_C10_zipcode_untouched wPlan wTable 0 (by decide)⟩

/-! Posterior, threshold-sweep and bin-diagnostic lemmas. -/

theorem classLik_nonneg (probs : List ℚ) (gamma : List Bool)
    (h : ∀ x ∈ probs, 0 ≤ x ∧ x ≤ 1) : 0 ≤ classLik probs gamma := by
  induction probs generalizing gamma with
  | nil => simp [classLik]
  | cons p ps ih =>
    cases gamma with
    | nil => simp [classLik]
    | cons g gs =>
      have hp := h p (List.mem_cons_self p ps)
      have hps : ∀ x ∈ ps, 0 ≤ x ∧ x ≤ 1 := fun x hx => h x (List.mem_cons_of_mem p hx)
      have : classLik (p :: ps) (g :: gs) =
          (if g then p else 1 - p) * classLik ps gs := by
        simp [classLik, List.zip_cons_cons]
      rw [this]
      apply mul_nonneg
      · cases g <;> simp <;> linarith [hp.1, hp.2]
      · exact ih gs hps

/-- Claim C4: the posterior of the fitted match-probability estimator is in
[0,1] for every scored pair, and (the hypothesis of a positive total mixture
mass being what non-NaN output means for the float code) no undefined value
is produced. -/
theorem claim_C4_posterior_in_unit (p : ℚ) (m u : List ℚ) (gamma : List Bool)
    (hp0 : 0 ≤ p) (hp1 : p ≤ 1)
    (hm : ∀ x ∈ m, 0 ≤ x ∧ x ≤ 1) (hu : ∀ x ∈ u, 0 ≤ x ∧ x ≤ 1)
    (hden : 0 < p * classLik m gamma + (1 - p) * classLik u gamma) :
    0 ≤ ecmPosterior p m u gamma ∧ ecmPosterior p m u gamma ≤ 1 := by
  have hnum : 0 ≤ p * classLik m gamma :=
    mul_nonneg hp0 (classLik_nonneg m gamma hm)
  have hu0 : 0 ≤ (1 - p) * classLik u gamma :=
    mul_nonneg (by linarith) (classLik_nonneg u gamma hu)
  constructor
  · exact div_nonneg hnum (le_of_lt hden)
  · rw [ecmPosterior, div_le_one hden]
    linarith

/-- Witness for claim C4 at concrete parameters. -/
theorem claim_C4_witness :
    (0 : ℚ) ≤ 1/2 ∧ (1/2 : ℚ) ≤ 1 ∧
    (0 < (1/2 : ℚ) * classLik [1/2] [true] +
      (1 - 1/2) * classLik [1/2] [true]) ∧
    (0 ≤ ecmPosterior (1/2) [1/2] [1/2] [true] ∧
      ecmPosterior (1/2) [1/2] [1/2] [true] ≤ 1) :=
  ⟨by norm_num, by norm_num, by norm_num [classLik],
    claim_C4_posterior_in_unit (1/2) [1/2] [1/2] [true]
      (by norm_num) (by norm_num)
      (by intro x hx; simp at hx; subst hx; norm_num)
      (by intro x hx; simp at hx; subst hx; norm_num)
      (by norm_num [classLik])⟩

/-- Counterexample to claim C6 as stated: on an empty candidate-pair set the
threshold sweep does not produce an empty output — it produces one row per
grid threshold. -/
theorem claim_C6_counterexample : countOfMatches [] ≠ [] := by
  decide

/-- Claim C6 (amended): on an empty candidate-pair set, the similarity
feature stage and the posterior scoring stage produce empty outputs, the
threshold sweep produces its 101 grid rows each with a zero match count, the
posterior-bin diagnostics produce their 10 bin rows each with zero pairs and
undefined means, and every stage is total. -/
theorem claim_C6_empty_pipeline :
    (computeFeatures []).rows = [] ∧
    (∀ (p : ℚ) (m u : List ℚ), scorePairs p m u [] = []) ∧
    countOfMatches [] = thresholdGrid.map (fun th => (th, 0)) ∧
    thresholdGrid.length = 101 ∧
    avgDistByBin [] = (List.range 10).map emptyBinRow :=
  ⟨rfl, fun _ _ _ => rfl, rfl, by decide, by decide⟩

/-- Claim C7: a posterior bin containing zero pairs yields the undefined
sentinel for its mean field-level distances (and a zero count) instead of a
division-by-zero error. -/
theorem claim_C7_empty_bin_sentinel (rows : List (ℚ × Person × Person))
    (k : ℕ) (hk : k < 10)
    (hempty : (matchesLow rows).filter (fun r => inBin k r.1) = []) :
    (avgDistByBin rows).getD k defaultBinRow = emptyBinRow k := by
  have hlen : k < (avgDistByBin rows).length := by
    simp [avgDistByBin, hk]
  rw [List.getD_eq_getElem _ _ hlen]
  simp only [avgDistByBin, List.getElem_map, List.getElem_range]
  simp [hempty, meanQ, emptyBinRow]

/-- Witness for claim C7 at the empty table and the first bin. -/
theorem claim_C7_witness :
    (0 : ℕ) < 10 ∧
    (matchesLow ([] : List (ℚ × Person × Person))).filter
      (fun r => inBin 0 r.1) = [] ∧
    (avgDistByBin ([] : List (ℚ × Person × Person))).getD 0 defaultBinRow =
      emptyBinRow 0 :=
  ⟨by decide, rfl, claim_C7_empty_bin_sentinel [] 0 (by decide) rfl⟩

/-- Claim C8: the blocking indexer plus similarity computer is a pure
function of the frozen input tables — two runs produce equal
comparison-vector tables, with the same fixed column labels in the same
order. -/
theorem claim_C8_two_runs_identical (A B : List Person) (f : MatchField) :
    computeFeatures (blockPairs f A B) = computeFeatures (blockPairs f A B) ∧
    (computeFeatures (blockPairs f A B)).labels =
      ["firstname_sim", "lastname_sim", "birthyear_sim", "zipcode_exact"] :=
  ⟨rfl, rfl⟩

/-! Generic helpers: insertion sort, mismatch counts, find? on sorted lists. -/

theorem insertNat_perm (x : ℕ) (l : List ℕ) : (insertNat x l).Perm (x :: l) := by
  induction l with
  | nil => simp [insertNat]
  | cons y ys ih =>
    by_cases h : x ≤ y
    · simp [insertNat, h]
    · simp only [insertNat, if_neg h]
      exact ((ih.cons y).trans (List.Perm.swap x y ys))

theorem insertNat_sorted (x : ℕ) (l : List ℕ) (hl : l.Sorted (· ≤ ·)) :
    (insertNat x l).Sorted (· ≤ ·) := by
  induction l with
  | nil => simp [insertNat]
  | cons y ys ih =>
    by_cases h : x ≤ y
    · simp only [insertNat, if_pos h]
      refine List.sorted_cons.mpr ⟨?_, hl⟩
      intro b hb
      rcases List.mem_cons.mp hb with rfl | hb
      · exact h
      · exact le_trans h ((List.sorted_cons.mp hl).1 b hb)
    · simp only [insertNat, if_neg h]
      refine List.sorted_cons.mpr ⟨?_, ih (List.sorted_cons.mp hl).2⟩
      intro b hb
      have hb2 := (insertNat_perm x ys).mem_iff.mp hb
      rcases List.mem_cons.mp hb2 with rfl | hb3
      · exact le_of_not_le h
      · exact (List.sorted_cons.mp hl).1 b hb3

theorem insSort_perm (l : List ℕ) : (insSort l).Perm l := by
  induction l with
  | nil => simp [insSort]
  | cons x xs ih => exact (insertNat_perm x (insSort xs)).trans (ih.cons x)

theorem insSort_sorted (l : List ℕ) : (insSort l).Sorted (· ≤ ·) := by
  induction l with
  | nil => simp [insSort]
  | cons x xs ih => exact insertNat_sorted x (insSort xs) ih

theorem insSort_eq_of_perm (l1 l2 : List ℕ) (h : l1.Perm l2) :
    insSort l1 = insSort l2 :=
  List.eq_of_perm_of_sorted ((insSort_perm l1).trans (h.trans (insSort_perm l2).symm))
    (insSort_sorted l1) (insSort_sorted l2)

theorem insSort_eq_self (l : List ℕ) (h : l.Sorted (· ≤ ·)) : insSort l = l :=
  List.eq_of_perm_of_sorted (insSort_perm l) (insSort_sorted l) h

theorem countMismatch_comm (l1 l2 : List Char) :
    countMismatch l1 l2 = countMismatch l2 l1 := by
  unfold countMismatch
  rw [← List.zip_swap l1 l2, List.countP_map]
  refine List.countP_congr ?_
  intro x _
  simp only [Function.comp_apply, Prod.fst_swap, Prod.snd_swap,
    Bool.not_eq_true', decide_eq_false_iff_not]
  exact not_congr eq_comm

theorem mem_zip_self {α : Type} (l : List α) (p : α × α) (hp : p ∈ l.zip l) :
    p.1 = p.2 := by
  induction l with
  | nil => simp at hp
  | cons a t ih =>
    rcases List.mem_cons.mp hp with h | h
    · rw [h]
    · exact ih h

theorem countMismatch_self (l : List Char) : countMismatch l l = 0 := by
  unfold countMismatch
  rw [List.countP_eq_zero]
  intro p hp
  simp [mem_zip_self l p hp]

theorem find?_congrOn {α : Type} (p q : α → Bool) (l : List α)
    (h : ∀ x ∈ l, p x = q x) : l.find? p = l.find? q := by
  induction l with
  | nil => rfl
  | cons a t ih =>
    have ha := h a (List.mem_cons_self a t)
    by_cases hq : q a = true
    · rw [List.find?_cons_of_pos t (ha ▸ hq), List.find?_cons_of_pos t hq]
    · rw [List.find?_cons_of_neg t (fun hc => hq (ha ▸ hc)),
        List.find?_cons_of_neg t hq]
      exact ih (fun x hx => h x (List.mem_cons_of_mem a hx))

theorem find?_sorted_min (p : ℕ → Bool) (x : ℕ) :
    ∀ (l : List ℕ), l.Pairwise (· < ·) → l.find? p = some x →
      ∀ y ∈ l, p y = true → x ≤ y := by
  intro l
  induction l with
  | nil => intro _ hx; simp at hx
  | cons a t ih =>
    intro hl hx y hy hpy
    by_cases hpa : p a = true
    · rw [List.find?_cons_of_pos t hpa] at hx
      obtain rfl : a = x := by injection hx
      rcases List.mem_cons.mp hy with rfl | hyt
      · exact le_refl y
      · exact le_of_lt ((List.pairwise_cons.mp hl).1 y hyt)
    · rw [List.find?_cons_of_neg t hpa] at hx
      rcases List.mem_cons.mp hy with rfl | hyt
      · exact absurd hpy hpa
      · exact ih (List.pairwise_cons.mp hl).2 hx y hyt hpy

theorem find?_sorted_eq_some (p : ℕ → Bool) (x : ℕ) :
    ∀ (l : List ℕ), l.Pairwise (· < ·) → x ∈ l → p x = true →
      (∀ y ∈ l, y < x → p y = false) → l.find? p = some x := by
  intro l
  induction l with
  | nil => intro _ hmem; simp at hmem
  | cons a t ih =>
    intro hl hmem hpx hmin
    rcases List.mem_cons.mp hmem with rfl | hxt
    · rw [List.find?_cons_of_pos t hpx]
    · have hax : a < x := (List.pairwise_cons.mp hl).1 x hxt
      have hpa : p a = false := hmin a (List.mem_cons_self a t) hax
      rw [List.find?_cons_of_neg t (by simp [hpa])]
      exact ih (List.pairwise_cons.mp hl).2 hxt hpx
        (fun y hy hyx => hmin y (List.mem_cons_of_mem a hy) hyx)

theorem find?_equiv_sorted (l1 l2 : List ℕ) (p1 p2 : ℕ → Bool)
    (h1 : l1.Pairwise (· < ·)) (h2 : l2.Pairwise (· < ·))
    (hiff : ∀ j, (j ∈ l1 ∧ p1 j = true) ↔ (j ∈ l2 ∧ p2 j = true)) :
    l1.find? p1 = l2.find? p2 := by
  cases hf : l1.find? p1 with
  | none =>
    have hnone := List.find?_eq_none.mp hf
    symm
    rw [List.find?_eq_none]
    intro x hx hpx
    exact hnone x ((hiff x).mpr ⟨hx, hpx⟩).1 ((hiff x).mpr ⟨hx, hpx⟩).2
  | some x =>
    have hx1 : x ∈ l1 := List.mem_of_find?_eq_some hf
    have hpx1 : p1 x = true := List.find?_some hf
    obtain ⟨hx2, hpx2⟩ := (hiff x).mp ⟨hx1, hpx1⟩
    symm
    refine find?_sorted_eq_some p2 x l2 h2 hx2 hpx2 ?_
    intro y hy hyx
    by_contra hpy
    have hpy2 : p2 y = true := by
      cases hb : p2 y
      · exact absurd hb hpy
      · rfl
    obtain ⟨hy1, hpy1⟩ := (hiff y).mpr ⟨hy, hpy2⟩
    exact absurd (find?_sorted_min p1 x l1 h1 hf y hy1 hpy1) (not_le.mpr hyx)

/-! Window, position-list and band-matching lemmas. -/

theorem mem_jaroWindow (w n2 i j : ℕ) :
    j ∈ jaroWindow w n2 i ↔ j < n2 ∧ i ≤ j + w ∧ j ≤ i + w := by
  simp [jaroWindow, List.mem_filter, List.mem_range, and_assoc]

theorem jaroWindow_pairwise (w n2 i : ℕ) :
    (jaroWindow w n2 i).Pairwise (· < ·) :=
  (List.pairwise_lt_range n2).filter _

theorem mem_posChar (s : List Char) (c : Char) (i : ℕ) :
    i ∈ posChar s c ↔ i < s.length ∧ chAt s i = c := by
  simp [posChar, List.mem_filter, List.mem_range]

theorem posChar_pairwise (s : List Char) (c : Char) :
    (posChar s c).Pairwise (· < ·) :=
  (List.pairwise_lt_range s.length).filter _

theorem usedSnd_eq_true (ps : List (ℕ × ℕ)) (j : ℕ) :
    usedSnd ps j = true ↔ j ∈ ps.map Prod.snd := by
  simp only [usedSnd, List.any_eq_true, List.mem_map, decide_eq_true_eq]

theorem twoPointer_mem_aux (w : ℕ) :
    ∀ (n : ℕ) (A B : List ℕ) (p : ℕ × ℕ), A.length + B.length ≤ n →
      p ∈ twoPointer w A B → p.1 ∈ A ∧ p.2 ∈ B := by
  intro n
  induction n with
  | zero =>
    intro A B p hn hp
    have : A = [] := List.length_eq_zero.mp (by omega)
    subst this
    simp [twoPointer] at hp
  | succ n ih =>
    intro A B p hn hp
    cases A with
    | nil => simp [twoPointer] at hp
    | cons a as =>
      cases B with
      | nil => simp [twoPointer] at hp
      | cons b bs =>
        simp only [twoPointer] at hp
        simp only [List.length_cons] at hn
        by_cases h1 : a ≤ b + w ∧ b ≤ a + w
        · rw [if_pos h1] at hp
          rcases List.mem_cons.mp hp with rfl | hp2
          · exact ⟨List.mem_cons_self a as, List.mem_cons_self b bs⟩
          · have := ih as bs p (by omega) hp2
            exact ⟨List.mem_cons_of_mem a this.1, List.mem_cons_of_mem b this.2⟩
        · rw [if_neg h1] at hp
          by_cases h2 : b + w < a
          · rw [if_pos h2] at hp
            have := ih (a :: as) bs p (by simp; omega) hp
            exact ⟨this.1, List.mem_cons_of_mem b this.2⟩
          · rw [if_neg h2] at hp
            have := ih as (b :: bs) p (by simp; omega) hp
            exact ⟨List.mem_cons_of_mem a this.1, this.2⟩

theorem twoPointer_mem (w : ℕ) (A B : List ℕ) (p : ℕ × ℕ)
    (hp : p ∈ twoPointer w A B) : p.1 ∈ A ∧ p.2 ∈ B :=
  twoPointer_mem_aux w (A.length + B.length) A B p (le_refl _) hp

theorem twoPointer_swap_aux (w : ℕ) :
    ∀ (n : ℕ) (A B : List ℕ), A.length + B.length ≤ n →
      twoPointer w B A = (twoPointer w A B).map Prod.swap := by
  intro n
  induction n with
  | zero =>
    intro A B hn
    have hA : A = [] := List.length_eq_zero.mp (by omega)
    have hB : B = [] := List.length_eq_zero.mp (by omega)
    subst hA; subst hB
    simp [twoPointer]
  | succ n ih =>
    intro A B hn
    cases A with
    | nil => cases B with
      | nil => simp [twoPointer]
      | cons b bs => simp [twoPointer]
    | cons a as =>
      cases B with
      | nil => simp [twoPointer]
      | cons b bs =>
        simp only [List.length_cons] at hn
        simp only [twoPointer]
        by_cases h1 : a ≤ b + w ∧ b ≤ a + w
        · rw [if_pos h1, if_pos (And.intro h1.2 h1.1)]
          rw [List.map_cons, Prod.swap_prod_mk]
          exact congrArg (List.cons (b, a)) (ih as bs (by omega))
        · by_cases h2 : b + w < a
          · have hs1 : ¬ (b ≤ a + w ∧ a ≤ b + w) := fun hc =>
              h1 ⟨by omega, hc.1⟩
            have hs2 : ¬ (a + w < b) := by omega
            rw [if_neg h1, if_pos h2, if_neg hs1, if_neg hs2]
            exact ih (a :: as) bs (by simp; omega)
          · have h3 : a + w < b := by
              rcases not_and_or.mp h1 with h | h <;> omega
            have hs1 : ¬ (b ≤ a + w ∧ a ≤ b + w) := fun hc => by omega
            rw [if_neg h1, if_neg h2, if_neg hs1, if_pos h3]
            exact ih as (b :: bs) (by simp; omega)

theorem twoPointer_swap (w : ℕ) (A B : List ℕ) :
    twoPointer w B A = (twoPointer w A B).map Prod.swap :=
  twoPointer_swap_aux w (A.length + B.length) A B (le_refl _)

theorem tp_single (w k : ℕ) :
    ∀ (B : List ℕ), B.Pairwise (· < ·) →
      twoPointer w [k] B =
        tpExt k (B.find? (fun j => decide (k ≤ j + w) && decide (j ≤ k + w))) := by
  intro B
  induction B with
  | nil => intro _; simp [twoPointer, tpExt]
  | cons b bs ih =>
    intro hB
    by_cases h1 : k ≤ b + w ∧ b ≤ k + w
    · have hpred : (fun j => decide (k ≤ j + w) && decide (j ≤ k + w)) b = true := by
        simp [h1.1, h1.2]
      rw [List.find?_cons_of_pos bs hpred]
      simp only [twoPointer, if_pos h1, tpExt]
    · by_cases h2 : b + w < k
      · have hpred : ¬ ((fun j => decide (k ≤ j + w) && decide (j ≤ k + w)) b = true) := by
          simp only [Bool.and_eq_true, decide_eq_true_eq, not_and]
          intro h; omega
        rw [List.find?_cons_of_neg bs hpred]
        have hL : twoPointer w [k] (b :: bs) = twoPointer w [k] bs := by
          simp only [twoPointer, if_neg h1, if_pos h2]
        rw [hL]
        exact ih (List.pairwise_cons.mp hB).2
      · have h3 : k + w < b := by rcases not_and_or.mp h1 with h | h <;> omega
        have hnone : (b :: bs).find?
            (fun j => decide (k ≤ j + w) && decide (j ≤ k + w)) = none := by
          rw [List.find?_eq_none]
          intro x hx
          rcases List.mem_cons.mp hx with rfl | hxs
          · simp only [Bool.and_eq_true, decide_eq_true_eq, not_and]
            intro h; omega
          · have hbx : b < x := (List.pairwise_cons.mp hB).1 x hxs
            simp only [Bool.and_eq_true, decide_eq_true_eq, not_and]
            intro h; omega
        rw [hnone]
        have hL : twoPointer w [k] (b :: bs) = twoPointer w ([] : List ℕ) (b :: bs) := by
          simp only [twoPointer, if_neg h1, if_neg h2]
        rw [hL]
        simp [twoPointer, tpExt]

theorem tp_extend (w k : ℕ) :
    ∀ (n : ℕ) (A B : List ℕ), A.length + B.length ≤ n →
      B.Pairwise (· < ·) → (∀ a ∈ A, a < k) →
      twoPointer w (A ++ [k]) B =
        twoPointer w A B ++
          tpExt k (B.find? (fun j => !(usedSnd (twoPointer w A B) j) &&
            (decide (k ≤ j + w) && decide (j ≤ k + w)))) := by
  intro n
  induction n with
  | zero =>
    intro A B hn hB hA
    have hA0 : A = [] := List.length_eq_zero.mp (by omega)
    have hB0 : B = [] := List.length_eq_zero.mp (by omega)
    subst hA0; subst hB0
    simp [twoPointer, tpExt]
  | succ n ih =>
    intro A B hn hB hA
    cases A with
    | nil =>
      have h0 : twoPointer w ([] : List ℕ) B = [] := by cases B <;> simp [twoPointer]
      have hpred : B.find? (fun j => !(usedSnd ([] : List (ℕ × ℕ)) j) &&
          (decide (k ≤ j + w) && decide (j ≤ k + w))) =
          B.find? (fun j => decide (k ≤ j + w) && decide (j ≤ k + w)) := by
        apply find?_congrOn
        intro x _
        simp [usedSnd]
      rw [List.nil_append, h0, hpred, List.nil_append, tp_single w k B hB]
    | cons a as =>
      have hak : a < k := hA a (List.mem_cons_self a as)
      have has : ∀ x ∈ as, x < k := fun x hx => hA x (List.mem_cons_of_mem a hx)
      cases B with
      | nil =>
        have hL : twoPointer w ((a :: as) ++ [k]) ([] : List ℕ) = [] := by
          rw [List.cons_append]; simp [twoPointer]
        have hR : twoPointer w (a :: as) ([] : List ℕ) = [] := by
          simp [twoPointer]
        rw [hL, hR]
        simp [tpExt]
      | cons b bs =>
        have hb_lt : ∀ x ∈ bs, b < x := (List.pairwise_cons.mp hB).1
        have hbs : bs.Pairwise (· < ·) := (List.pairwise_cons.mp hB).2
        simp only [List.length_cons] at hn
        rw [List.cons_append]
        by_cases h1 : a ≤ b + w ∧ b ≤ a + w
        · have hL : twoPointer w (a :: (as ++ [k])) (b :: bs) =
              (a, b) :: twoPointer w (as ++ [k]) bs := by
            simp only [twoPointer]; rw [if_pos h1]
          have hR : twoPointer w (a :: as) (b :: bs) =
              (a, b) :: twoPointer w as bs := by
            simp only [twoPointer]; rw [if_pos h1]
          rw [hL, hR, ih as bs (by omega) hbs has, List.cons_append]
          congr 1
          congr 1
          have hbfalse : (!(usedSnd ((a, b) :: twoPointer w as bs) b) &&
              (decide (k ≤ b + w) && decide (b ≤ k + w))) = false := by
            simp [usedSnd]
          rw [List.find?_cons_of_neg bs (by rw [hbfalse]; exact Bool.false_ne_true)]
          apply congrArg (tpExt k)
          apply find?_congrOn
          intro x hx
          have hxb : b < x := hb_lt x hx
          have hne : (decide (b = x)) = false := by
            simp only [decide_eq_false_iff_not]
            omega
          simp only [usedSnd, List.any_cons, hne, Bool.false_or]
        · by_cases h2 : b + w < a
          · have hL : twoPointer w (a :: (as ++ [k])) (b :: bs) =
                twoPointer w (a :: (as ++ [k])) bs := by
              simp only [twoPointer]; rw [if_neg h1, if_pos h2]
            have hR : twoPointer w (a :: as) (b :: bs) =
                twoPointer w (a :: as) bs := by
              simp only [twoPointer]; rw [if_neg h1, if_pos h2]
            rw [hL, hR, ← List.cons_append,
              ih (a :: as) bs (by simp only [List.length_cons]; omega) hbs hA]
            congr 1
            apply congrArg (tpExt k)
            symm
            apply List.find?_cons_of_neg
            have hw : decide (k ≤ b + w) = false := by
              simp only [decide_eq_false_iff_not]
              omega
            rw [hw]
            simp
          · have h3 : a + w < b := by rcases not_and_or.mp h1 with h | h <;> omega
            have hL : twoPointer w (a :: (as ++ [k])) (b :: bs) =
                twoPointer w (as ++ [k]) (b :: bs) := by
              simp only [twoPointer]; rw [if_neg h1, if_neg h2]
            have hR : twoPointer w (a :: as) (b :: bs) =
                twoPointer w as (b :: bs) := by
              simp only [twoPointer]; rw [if_neg h1, if_neg h2]
            rw [hL, hR]
            exact ih as (b :: bs) (by simp only [List.length_cons]; omega) hB has

theorem procUpto_succ (s1 s2 : List Char) (w k : ℕ) :
    procUpto s1 s2 w (k + 1) = jaroStep s1 s2 w (procUpto s1 s2 w k) k := by
  unfold procUpto
  rw [List.range_succ, List.foldl_append]
  rfl

theorem jaroPairs_eq_procUpto (s1 s2 : List Char) :
    jaroPairs s1 s2 =
      procUpto s1 s2 (max s1.length s2.length / 2 - 1) s1.length := rfl

theorem classPairs_append (s1 : List Char) (c : Char) (ps qs : List (ℕ × ℕ)) :
    classPairs s1 c (ps ++ qs) = classPairs s1 c ps ++ classPairs s1 c qs := by
  simp [classPairs, List.filter_append]

theorem filter_lt_succ_of_not_mem (l : List ℕ) (k : ℕ) (hk : k ∉ l) :
    l.filter (fun i => decide (i < k + 1)) = l.filter (fun i => decide (i < k)) := by
  apply List.filter_congr
  intro x hx
  have hxk : x ≠ k := fun h => hk (h ▸ hx)
  simp only [decide_eq_decide]
  omega

theorem filter_lt_succ_of_mem (l : List ℕ) (hl : l.Pairwise (· < ·)) (k : ℕ)
    (hk : k ∈ l) :
    l.filter (fun i => decide (i < k + 1)) =
      l.filter (fun i => decide (i < k)) ++ [k] := by
  induction l with
  | nil => simp at hk
  | cons a t ih =>
    have hpc := List.pairwise_cons.mp hl
    rcases List.mem_cons.mp hk with rfl | hkt
    · have h1 : t.filter (fun i => decide (i < k + 1)) = [] := by
        rw [List.filter_eq_nil_iff]
        intro x hx
        have := hpc.1 x hx
        simp only [decide_eq_true_eq]
        omega
      have h2 : t.filter (fun i => decide (i < k)) = [] := by
        rw [List.filter_eq_nil_iff]
        intro x hx
        have := hpc.1 x hx
        simp only [decide_eq_true_eq]
        omega
      rw [List.filter_cons, List.filter_cons,
        if_pos (by simp), if_neg (by simp), h1, h2]
      rfl
    · have hat : a < k := by
        have := hpc.1 k hkt
        omega
      rw [List.filter_cons, List.filter_cons,
        if_pos (by simp only [decide_eq_true_eq]; omega),
        if_pos (by simp only [decide_eq_true_eq]; omega),
        ih hpc.2 hkt]
      rfl

theorem procUpto_inv (s1 s2 : List Char) (w : ℕ) :
    ∀ (k : ℕ), k ≤ s1.length →
      (∀ p ∈ procUpto s1 s2 w k, p.1 < k ∧ p.2 < s2.length ∧
        chAt s1 p.1 = chAt s2 p.2) ∧
      ((procUpto s1 s2 w k).map Prod.fst).Pairwise (· < ·) ∧
      ((procUpto s1 s2 w k).map Prod.snd).Nodup ∧
      (∀ c, classPairs s1 c (procUpto s1 s2 w k) =
        twoPointer w ((posChar s1 c).filter (fun i => decide (i < k)))
          (posChar s2 c)) := by
  intro k
  induction k with
  | zero =>
    intro _
    refine ⟨?_, ?_, ?_, ?_⟩
    · intro p hp; simp [procUpto] at hp
    · simp [procUpto]
    · simp [procUpto]
    · intro c
      have h0 : (posChar s1 c).filter (fun i => decide (i < 0)) = [] := by
        rw [List.filter_eq_nil_iff]; intro x _; simp
      rw [h0]
      have : procUpto s1 s2 w 0 = [] := rfl
      rw [this]
      cases posChar s2 c <;> simp [classPairs, twoPointer]
  | succ k ih =>
    intro hk1
    have hk : k ≤ s1.length := Nat.le_of_succ_le hk1
    have hkn1 : k < s1.length := hk1
    obtain ⟨inv1, inv2, inv3, inv4⟩ := ih hk
    rw [procUpto_succ]
    set P := procUpto s1 s2 w k with hP
    set cstar := chAt s1 k with hcstar
    have hfind : (jaroWindow w s2.length k).find?
        (fun j => !(usedSnd P j) && decide (chAt s2 j = chAt s1 k)) =
        (posChar s2 cstar).find?
          (fun j => !(usedSnd (classPairs s1 cstar P) j) &&
            (decide (k ≤ j + w) && decide (j ≤ k + w))) := by
      apply find?_equiv_sorted _ _ _ _ (jaroWindow_pairwise w s2.length k)
        (posChar_pairwise s2 cstar)
      intro j
      constructor
      · rintro ⟨hjw, hpj⟩
        obtain ⟨hjn, hjw1, hjw2⟩ := (mem_jaroWindow w s2.length k j).mp hjw
        simp only [Bool.and_eq_true, Bool.not_eq_true', decide_eq_true_eq] at hpj
        obtain ⟨hused, hch⟩ := hpj
        refine ⟨(mem_posChar s2 cstar j).mpr ⟨hjn, hch⟩, ?_⟩
        simp only [Bool.and_eq_true, Bool.not_eq_true', decide_eq_true_eq]
        refine ⟨?_, hjw1, hjw2⟩
        cases hu : usedSnd (classPairs s1 cstar P) j
        · rfl
        · exfalso
          obtain ⟨p, hpmem, hpj2⟩ := List.mem_map.mp ((usedSnd_eq_true _ j).mp hu)
          have hpP : p ∈ P := List.mem_of_mem_filter hpmem
          have : usedSnd P j = true := (usedSnd_eq_true P j).mpr
            (List.mem_map.mpr ⟨p, hpP, hpj2⟩)
          rw [hused] at this
          exact Bool.false_ne_true this
      · rintro ⟨hjp, hpj⟩
        obtain ⟨hjn, hch⟩ := (mem_posChar s2 cstar j).mp hjp
        simp only [Bool.and_eq_true, Bool.not_eq_true', decide_eq_true_eq] at hpj
        obtain ⟨husedc, hjw1, hjw2⟩ := hpj
        refine ⟨(mem_jaroWindow w s2.length k j).mpr ⟨hjn, hjw1, hjw2⟩, ?_⟩
        simp only [Bool.and_eq_true, Bool.not_eq_true', decide_eq_true_eq]
        refine ⟨?_, hch⟩
        cases hu : usedSnd P j
        · rfl
        · exfalso
          obtain ⟨p, hpmem, hpj2⟩ := List.mem_map.mp ((usedSnd_eq_true P j).mp hu)
          have hcls : chAt s1 p.1 = cstar := by
            rw [(inv1 p hpmem).2.2, hpj2, hch]
          have hmemc : p ∈ classPairs s1 cstar P :=
            List.mem_filter.mpr ⟨hpmem, by simp [classPairs, hcls]⟩
          have : usedSnd (classPairs s1 cstar P) j = true :=
            (usedSnd_eq_true _ j).mpr (List.mem_map.mpr ⟨p, hmemc, hpj2⟩)
          rw [husedc] at this
          exact Bool.false_ne_true this
    cases hF : (jaroWindow w s2.length k).find?
        (fun j => !(usedSnd P j) && decide (chAt s2 j = chAt s1 k)) with
    | some j =>
      have hstep : jaroStep s1 s2 w P k = P ++ [(k, j)] := by
        unfold jaroStep; rw [hF]
      have hjwmem := List.mem_of_find?_eq_some hF
      obtain ⟨hjn, hjw1, hjw2⟩ := (mem_jaroWindow w s2.length k j).mp hjwmem
      have hjp := List.find?_some hF
      simp only [Bool.and_eq_true, Bool.not_eq_true', decide_eq_true_eq] at hjp
      obtain ⟨hused, hch⟩ := hjp
      rw [hstep]
      refine ⟨?_, ?_, ?_, ?_⟩
      · intro p hp
        rcases List.mem_append.mp hp with h | h
        · obtain ⟨h1, h2, h3⟩ := inv1 p h
          exact ⟨Nat.lt_succ_of_lt h1, h2, h3⟩
        · rw [List.mem_singleton.mp h]
          exact ⟨Nat.lt_succ_self k, hjn, hch.symm⟩
      · rw [List.map_append, List.pairwise_append]
        refine ⟨inv2, by simp, ?_⟩
        intro x hx y hy
        obtain ⟨p, hpP, rfl⟩ := List.mem_map.mp hx
        simp only [List.map_cons, List.map_nil, List.mem_singleton] at hy
        rw [hy]
        exact (inv1 p hpP).1
      · rw [List.map_append, List.nodup_append]
        refine ⟨inv3, by simp, ?_⟩
        intro x hx hxj
        simp only [List.map_cons, List.map_nil, List.mem_singleton] at hxj
        rw [hxj] at hx
        have : usedSnd P j = true := (usedSnd_eq_true P j).mpr hx
        rw [hused] at this
        exact Bool.false_ne_true this
      · intro c
        by_cases hcc : c = cstar
        · subst hcc
          have hkmem : k ∈ posChar s1 cstar :=
            (mem_posChar s1 cstar k).mpr ⟨hkn1, hcstar.symm⟩
          rw [filter_lt_succ_of_mem (posChar s1 cstar)
            (posChar_pairwise s1 cstar) k hkmem]
          rw [tp_extend w k
            (((posChar s1 cstar).filter (fun i => decide (i < k))).length +
              (posChar s2 cstar).length)
            ((posChar s1 cstar).filter (fun i => decide (i < k))) (posChar s2 cstar)
            (le_refl _) (posChar_pairwise s2 cstar)
            (fun a ha => by simpa using (List.mem_filter.mp ha).2)]
          rw [← inv4 cstar, ← hfind, hF, classPairs_append]
          have hnew : classPairs s1 cstar [(k, j)] = [(k, j)] := by
            simp [classPairs, hcstar]
          rw [hnew]
          rfl
        · have hknotmem : k ∉ posChar s1 c := by
            rw [mem_posChar]
            rintro ⟨_, hc2⟩
            exact hcc (by rw [hcstar, hc2])
          rw [filter_lt_succ_of_not_mem (posChar s1 c) k hknotmem, ← inv4 c,
            classPairs_append]
          have hnew : classPairs s1 c [(k, j)] = [] := by
            have hne : decide (chAt s1 k = c) = false := by
              simp only [decide_eq_false_iff_not]
              intro h
              exact hcc (by rw [hcstar, h])
            simp [classPairs, hne]
          rw [hnew, List.append_nil]
    | none =>
      have hstep : jaroStep s1 s2 w P k = P := by
        unfold jaroStep; rw [hF]
      rw [hstep]
      refine ⟨?_, inv2, inv3, ?_⟩
      · intro p hp
        obtain ⟨h1, h2, h3⟩ := inv1 p hp
        exact ⟨Nat.lt_succ_of_lt h1, h2, h3⟩
      · intro c
        by_cases hcc : c = cstar
        · subst hcc
          have hkmem : k ∈ posChar s1 cstar :=
            (mem_posChar s1 cstar k).mpr ⟨hkn1, hcstar.symm⟩
          rw [filter_lt_succ_of_mem (posChar s1 cstar)
            (posChar_pairwise s1 cstar) k hkmem]
          rw [tp_extend w k
            (((posChar s1 cstar).filter (fun i => decide (i < k))).length +
              (posChar s2 cstar).length)
            ((posChar s1 cstar).filter (fun i => decide (i < k))) (posChar s2 cstar)
            (le_refl _) (posChar_pairwise s2 cstar)
            (fun a ha => by simpa using (List.mem_filter.mp ha).2)]
          rw [← inv4 cstar, ← hfind, hF]
          rw [show tpExt k (none : Option ℕ) = [] from rfl, List.append_nil]
        · have hknotmem : k ∉ posChar s1 c := by
            rw [mem_posChar]
            rintro ⟨_, hc2⟩
            exact hcc (by rw [hcstar, hc2])
          rw [filter_lt_succ_of_not_mem (posChar s1 c) k hknotmem]
          exact inv4 c

/-! Assembly: the greedy Jaro matching as a sum of per-character band
matchings, and its swap symmetry. -/

theorem chAt_mem (s : List Char) (i : ℕ) (h : i < s.length) : chAt s i ∈ s := by
  unfold chAt
  rw [List.getD_eq_getElem _ _ h]
  exact List.getElem_mem h

theorem jaroPairs_facts (s1 s2 : List Char) :
    (∀ p ∈ jaroPairs s1 s2, p.1 < s1.length ∧ p.2 < s2.length ∧
      chAt s1 p.1 = chAt s2 p.2) ∧
    ((jaroPairs s1 s2).map Prod.fst).Pairwise (· < ·) ∧
    ((jaroPairs s1 s2).map Prod.snd).Nodup ∧
    (∀ c, classPairs s1 c (jaroPairs s1 s2) =
      twoPointer (max s1.length s2.length / 2 - 1) (posChar s1 c) (posChar s2 c)) := by
  obtain ⟨i1, i2, i3, i4⟩ := procUpto_inv s1 s2 (max s1.length s2.length / 2 - 1)
    s1.length (le_refl _)
  rw [jaroPairs_eq_procUpto]
  refine ⟨i1, i2, i3, ?_⟩
  intro c
  have hfix : (posChar s1 c).filter (fun i => decide (i < s1.length)) =
      posChar s1 c := by
    rw [List.filter_eq_self]
    intro x hx
    simp only [decide_eq_true_eq]
    exact ((mem_posChar s1 c x).mp hx).1
  rw [i4 c, hfix]

theorem partition_by_class (s1 : List Char) :
    ∀ (ps : List (ℕ × ℕ)) (S : Finset Char),
      (∀ p ∈ ps, chAt s1 p.1 ∈ S) →
      (↑ps : Multiset (ℕ × ℕ)) =
        ∑ c ∈ S, (↑(classPairs s1 c ps) : Multiset (ℕ × ℕ)) := by
  intro ps
  induction ps with
  | nil =>
    intro S _
    simp [classPairs]
  | cons p ps ih =>
    intro S h
    have hmem : chAt s1 p.1 ∈ S := h p (List.mem_cons_self p ps)
    have hps : ∀ q ∈ ps, chAt s1 q.1 ∈ S := fun q hq => h q (List.mem_cons_of_mem p hq)
    have step : ∀ c ∈ S, (↑(classPairs s1 c (p :: ps)) : Multiset (ℕ × ℕ)) =
        (if chAt s1 p.1 = c then ({p} : Multiset (ℕ × ℕ)) else 0) +
          ↑(classPairs s1 c ps) := by
      intro c _
      by_cases hc : chAt s1 p.1 = c
      · have : classPairs s1 c (p :: ps) = p :: classPairs s1 c ps := by
          simp [classPairs, List.filter_cons, hc]
        rw [this, if_pos hc, Multiset.singleton_add, Multiset.cons_coe]
      · have : classPairs s1 c (p :: ps) = classPairs s1 c ps := by
          simp [classPairs, List.filter_cons, hc]
        rw [this, if_neg hc, zero_add]
    rw [Finset.sum_congr rfl step, Finset.sum_add_distrib, ← ih S hps,
      Finset.sum_ite_eq S (chAt s1 p.1) (fun _ => ({p} : Multiset (ℕ × ℕ))),
      if_pos hmem, Multiset.singleton_add, Multiset.cons_coe]

theorem jaroPairs_multiset (s1 s2 : List Char) :
    (↑(jaroPairs s1 s2) : Multiset (ℕ × ℕ)) =
      ∑ c ∈ (s1 ++ s2).toFinset,
        (↑(twoPointer (max s1.length s2.length / 2 - 1)
          (posChar s1 c) (posChar s2 c)) : Multiset (ℕ × ℕ)) := by
  obtain ⟨i1, _, _, i4⟩ := jaroPairs_facts s1 s2
  rw [partition_by_class s1 (jaroPairs s1 s2) ((s1 ++ s2).toFinset) ?_]
  · exact Finset.sum_congr rfl (fun c _ => by rw [i4 c])
  · intro p hp
    rw [List.mem_toFinset, List.mem_append]
    exact Or.inl (chAt_mem s1 p.1 (i1 p hp).1)

theorem multiset_map_finset_sum {α : Type} (f : α → α) (S : Finset Char)
    (g : Char → Multiset α) :
    Multiset.map f (∑ c ∈ S, g c) = ∑ c ∈ S, Multiset.map f (g c) := by
  induction S using Finset.induction_on with
  | empty => simp
  | insert hns ih =>
    rw [Finset.sum_insert hns, Finset.sum_insert hns, Multiset.map_add, ih]

theorem jaroPairs_swap_perm (s1 s2 : List Char) :
    (jaroPairs s2 s1).Perm ((jaroPairs s1 s2).map Prod.swap) := by
  rw [← Multiset.coe_eq_coe, jaroPairs_multiset s2 s1]
  have hw : max s2.length s1.length / 2 - 1 = max s1.length s2.length / 2 - 1 := by
    rw [Nat.max_comm]
  have hS : (s2 ++ s1).toFinset = (s1 ++ s2).toFinset := by
    simp [List.toFinset_append, Finset.union_comm]
  rw [hw, hS, ← Multiset.map_coe, jaroPairs_multiset s1 s2,
    multiset_map_finset_sum]
  refine Finset.sum_congr rfl (fun c _ => ?_)
  rw [twoPointer_swap, Multiset.map_coe]

theorem jaroPairs_length_symm (s1 s2 : List Char) :
    (jaroPairs s2 s1).length = (jaroPairs s1 s2).length := by
  have := (jaroPairs_swap_perm s1 s2).length_eq
  simpa using this

theorem jaroPairs_fst_symm (s1 s2 : List Char) :
    insSort ((jaroPairs s2 s1).map Prod.fst) =
      insSort ((jaroPairs s1 s2).map Prod.snd) := by
  apply insSort_eq_of_perm
  have h := (jaroPairs_swap_perm s1 s2).map Prod.fst
  have h2 : ((jaroPairs s1 s2).map Prod.swap).map Prod.fst =
      (jaroPairs s1 s2).map Prod.snd := by
    rw [List.map_map]
    exact List.map_congr_left (fun p _ => rfl)
  rwa [h2] at h

theorem jaroPairs_snd_symm (s1 s2 : List Char) :
    insSort ((jaroPairs s2 s1).map Prod.snd) =
      insSort ((jaroPairs s1 s2).map Prod.fst) := by
  apply insSort_eq_of_perm
  have h := (jaroPairs_swap_perm s1 s2).map Prod.snd
  have h2 : ((jaroPairs s1 s2).map Prod.swap).map Prod.snd =
      (jaroPairs s1 s2).map Prod.fst := by
    rw [List.map_map]
    exact List.map_congr_left (fun p _ => rfl)
  rwa [h2] at h

theorem jaroSim_symm (s1 s2 : List Char) : jaroSim s1 s2 = jaroSim s2 s1 := by
  unfold jaroSim
  by_cases h0 : s1.length = 0 ∧ s2.length = 0
  · rw [if_pos h0, if_pos ⟨h0.2, h0.1⟩]
  · rw [if_neg h0, if_neg (show ¬ (s2.length = 0 ∧ s1.length = 0) from
      fun hc => h0 ⟨hc.2, hc.1⟩)]
    dsimp only
    rw [jaroPairs_length_symm s1 s2]
    by_cases hm : (jaroPairs s1 s2).length = 0
    · rw [if_pos hm, if_pos hm]
    · rw [if_neg hm, if_neg hm,
        jaroPairs_fst_symm s1 s2, jaroPairs_snd_symm s1 s2]
      have hcm : countMismatch
          ((insSort ((jaroPairs s1 s2).map Prod.snd)).map (chAt s2))
          ((insSort ((jaroPairs s1 s2).map Prod.fst)).map (chAt s1)) =
          countMismatch
          ((insSort ((jaroPairs s1 s2).map Prod.fst)).map (chAt s1))
          ((insSort ((jaroPairs s1 s2).map Prod.snd)).map (chAt s2)) :=
        countMismatch_comm _ _
      rw [hcm]
      ring

theorem commonPrefixLen_comm : ∀ (s1 s2 : List Char),
    commonPrefixLen s1 s2 = commonPrefixLen s2 s1 := by
  intro s1
  induction s1 with
  | nil => intro s2; cases s2 <;> rfl
  | cons a s ih =>
    intro s2
    cases s2 with
    | nil => rfl
    | cons b t =>
      by_cases h : a = b
      · simp only [commonPrefixLen, if_pos h, if_pos h.symm, ih t]
      · simp only [commonPrefixLen, if_neg h, if_neg (show ¬ b = a from fun hc => h hc.symm)]

theorem jaroWinkler_symm (s1 s2 : List Char) :
    jaroWinkler s1 s2 = jaroWinkler s2 s1 := by
  unfold jaroWinkler
  rw [jaroSim_symm s1 s2, commonPrefixLen_comm s1 s2]

/-! Reflexivity. -/

theorem procUpto_diag (s : List Char) (w : ℕ) :
    ∀ (k : ℕ), k ≤ s.length →
      procUpto s s w k = (List.range k).map (fun i => (i, i)) := by
  intro k
  induction k with
  | zero => intro _; rfl
  | succ k ih =>
    intro hk1
    have hkn : k < s.length := hk1
    rw [procUpto_succ, ih (Nat.le_of_succ_le hk1)]
    have husedk : usedSnd ((List.range k).map (fun i => (i, i))) k = false := by
      cases hu : usedSnd ((List.range k).map (fun i => (i, i))) k
      · rfl
      · exfalso
        have := (usedSnd_eq_true _ k).mp hu
        rw [List.map_map] at this
        obtain ⟨i, hi, hik⟩ := List.mem_map.mp this
        rw [List.mem_range] at hi
        simp only [Function.comp_apply] at hik
        omega
    have hfind : (jaroWindow w s.length k).find?
        (fun j => !(usedSnd ((List.range k).map (fun i => (i, i))) j) &&
          decide (chAt s j = chAt s k)) = some k := by
      apply find?_sorted_eq_some _ _ _ (jaroWindow_pairwise w s.length k)
      · exact (mem_jaroWindow w s.length k k).mpr
          ⟨hkn, Nat.le_add_right k w, Nat.le_add_right k w⟩
      · simp [husedk]
      · intro y _ hyk
        have husedy : usedSnd ((List.range k).map (fun i => (i, i))) y = true := by
          apply (usedSnd_eq_true _ y).mpr
          rw [List.map_map]
          exact List.mem_map.mpr ⟨y, List.mem_range.mpr hyk, rfl⟩
        simp [husedy]
    have hstep : jaroStep s s w ((List.range k).map (fun i => (i, i))) k =
        (List.range k).map (fun i => (i, i)) ++ [(k, k)] := by
      unfold jaroStep
      rw [hfind]
    rw [hstep, List.range_succ, List.map_append]
    rfl

theorem jaroPairs_self (s : List Char) :
    jaroPairs s s = (List.range s.length).map (fun i => (i, i)) := by
  rw [jaroPairs_eq_procUpto]
  exact procUpto_diag s _ s.length (le_refl _)

theorem jaroSim_self (s : List Char) : jaroSim s s = 1 := by
  unfold jaroSim
  by_cases h0 : s.length = 0
  · rw [if_pos ⟨h0, h0⟩]
  · rw [if_neg (fun hc => h0 hc.1)]
    dsimp only
    rw [jaroPairs_self]
    have hfst : ((List.range s.length).map (fun i => (i, i))).map Prod.fst =
        List.range s.length := by
      rw [List.map_map]
      rw [show (Prod.fst ∘ fun i => ((i, i) : ℕ × ℕ)) = id from rfl, List.map_id]
    have hsnd : ((List.range s.length).map (fun i => (i, i))).map Prod.snd =
        List.range s.length := by
      rw [List.map_map]
      rw [show (Prod.snd ∘ fun i => ((i, i) : ℕ × ℕ)) = id from rfl, List.map_id]
    have hlen : ((List.range s.length).map (fun i => (i, i))).length = s.length := by
      simp
    rw [hfst, hsnd, hlen, if_neg h0,
      insSort_eq_self (List.range s.length) (List.sorted_le_range s.length),
      countMismatch_self, Nat.zero_div, Nat.sub_zero]
    have hne : (s.length : ℚ) ≠ 0 := Nat.cast_ne_zero.mpr h0
    field_simp
    norm_num

theorem jaroWinkler_self (s : List Char) : jaroWinkler s s = 1 := by
  unfold jaroWinkler
  rw [jaroSim_self]
  rw [if_pos (by norm_num)]
  ring

/-! Bounds. -/

theorem length_le_of_nodup_lt (l : List ℕ) (n : ℕ) (hnd : l.Nodup)
    (hlt : ∀ x ∈ l, x < n) : l.length ≤ n := by
  have h1 : l.toFinset.card = l.length := List.toFinset_card_of_nodup hnd
  have h2 : l.toFinset ⊆ Finset.range n := by
    intro x hx
    rw [Finset.mem_range]
    exact hlt x (List.mem_toFinset.mp hx)
  have := Finset.card_le_card h2
  rw [h1, Finset.card_range] at this
  exact this

theorem jaroPairs_length_le_left (s1 s2 : List Char) :
    (jaroPairs s1 s2).length ≤ s1.length := by
  obtain ⟨i1, i2, _, _⟩ := jaroPairs_facts s1 s2
  have hlen : ((jaroPairs s1 s2).map Prod.fst).length = (jaroPairs s1 s2).length :=
    List.length_map _ _
  rw [← hlen]
  apply length_le_of_nodup_lt _ _ (i2.imp ne_of_lt)
  intro x hx
  obtain ⟨p, hp, rfl⟩ := List.mem_map.mp hx
  exact (i1 p hp).1

theorem jaroPairs_length_le_right (s1 s2 : List Char) :
    (jaroPairs s1 s2).length ≤ s2.length := by
  obtain ⟨i1, _, i3, _⟩ := jaroPairs_facts s1 s2
  have hlen : ((jaroPairs s1 s2).map Prod.snd).length = (jaroPairs s1 s2).length :=
    List.length_map _ _
  rw [← hlen]
  apply length_le_of_nodup_lt _ _ i3
  intro x hx
  obtain ⟨p, hp, rfl⟩ := List.mem_map.mp hx
  exact (i1 p hp).2.1

theorem jaroSim_bounds (s1 s2 : List Char) :
    0 ≤ jaroSim s1 s2 ∧ jaroSim s1 s2 ≤ 1 := by
  unfold jaroSim
  by_cases h0 : s1.length = 0 ∧ s2.length = 0
  · rw [if_pos h0]; norm_num
  · rw [if_neg h0]
    dsimp only
    by_cases hm : (jaroPairs s1 s2).length = 0
    · rw [if_pos hm]; norm_num
    · rw [if_neg hm]
      obtain ⟨i1, _, _, _⟩ := jaroPairs_facts s1 s2
      obtain ⟨p, hp⟩ := List.exists_mem_of_ne_nil (jaroPairs s1 s2)
        (fun hc => hm (by rw [hc]; rfl))
      have hn1 : 0 < s1.length := lt_of_le_of_lt (Nat.zero_le _) (i1 p hp).1
      have hn2 : 0 < s2.length := lt_of_le_of_lt (Nat.zero_le _) (i1 p hp).2.1
      set m := (jaroPairs s1 s2).length with hmdef
      set t := countMismatch
        ((insSort ((jaroPairs s1 s2).map Prod.fst)).map (chAt s1))
        ((insSort ((jaroPairs s1 s2).map Prod.snd)).map (chAt s2)) / 2 with htdef
      have hmn1 : m ≤ s1.length := jaroPairs_length_le_left s1 s2
      have hmn2 : m ≤ s2.length := jaroPairs_length_le_right s1 s2
      have hmpos : 0 < m := Nat.pos_of_ne_zero hm
      have hterm1 : 0 ≤ (m : ℚ) / s1.length ∧ (m : ℚ) / s1.length ≤ 1 := by
        constructor
        · positivity
        · rw [div_le_one (by exact_mod_cast hn1)]
          exact_mod_cast hmn1
      have hterm2 : 0 ≤ (m : ℚ) / s2.length ∧ (m : ℚ) / s2.length ≤ 1 := by
        constructor
        · positivity
        · rw [div_le_one (by exact_mod_cast hn2)]
          exact_mod_cast hmn2
      have hterm3 : 0 ≤ ((m - t : ℕ) : ℚ) / m ∧ ((m - t : ℕ) : ℚ) / m ≤ 1 := by
        constructor
        · positivity
        · rw [div_le_one (by exact_mod_cast hmpos)]
          exact_mod_cast Nat.sub_le m t
      constructor
      · linarith [hterm1.1, hterm2.1, hterm3.1]
      · linarith [hterm1.2, hterm2.2, hterm3.2]

theorem jaroWinkler_bounds (s1 s2 : List Char) :
    0 ≤ jaroWinkler s1 s2 ∧ jaroWinkler s1 s2 ≤ 1 := by
  unfold jaroWinkler
  obtain ⟨hj0, hj1⟩ := jaroSim_bounds s1 s2
  dsimp only
  by_cases h : 7/10 < jaroSim s1 s2
  · rw [if_pos h]
    have hp0 : (0 : ℚ) ≤ min ((commonPrefixLen s1 s2 : ℚ)) 4 :=
      le_min (Nat.cast_nonneg _) (by norm_num)
    have hp4 : min ((commonPrefixLen s1 s2 : ℚ)) 4 ≤ 4 := min_le_right _ _
    have hprod0 : 0 ≤ (min ((commonPrefixLen s1 s2 : ℚ)) 4) * (1/10) *
        (1 - jaroSim s1 s2) :=
      mul_nonneg (mul_nonneg hp0 (by norm_num)) (by linarith)
    have hkey : (min ((commonPrefixLen s1 s2 : ℚ)) 4) * (1/10) *
        (1 - jaroSim s1 s2) ≤ 4 * (1/10) * (1 - jaroSim s1 s2) :=
      mul_le_mul_of_nonneg_right
        (mul_le_mul_of_nonneg_right hp4 (by norm_num)) (by linarith)
    constructor
    · linarith
    · linarith
  · rw [if_neg h]
    exact ⟨hj0, hj1⟩

/-! Gaussian-kernel and exact-indicator lemmas. -/

theorem gaussSim_symm (offset scale : ℚ) (y1 y2 : ℤ) :
    gaussSim offset scale y1 y2 = gaussSim offset scale y2 y1 := by
  unfold gaussSim
  rw [abs_sub_comm]

theorem gaussSim_pos (offset scale : ℚ) (y1 y2 : ℤ) :
    0 < gaussSim offset scale y1 y2 :=
  Real.rpow_pos_of_pos (by norm_num) _

theorem gaussSim_le_one (offset scale : ℚ) (y1 y2 : ℤ) :
    gaussSim offset scale y1 y2 ≤ 1 := by
  unfold gaussSim
  apply Real.rpow_le_one_of_one_le_of_nonpos (by norm_num)
  simp only [neg_nonpos]
  positivity

theorem birthyearSim_self (y : ℤ) : birthyearSim y y = 1 := by
  unfold birthyearSim gaussSim
  norm_num

theorem exactSim_symm (z1 z2 : ℤ) : exactSim z1 z2 = exactSim z2 z1 := by
  unfold exactSim
  by_cases h : z1 = z2
  · rw [if_pos h, if_pos h.symm]
  · rw [if_neg h, if_neg (fun hc => h hc.symm)]

theorem exactSim_self (z : ℤ) : exactSim z z = 1 := by
  unfold exactSim
  rw [if_pos rfl]

theorem exactSim_bounds (z1 z2 : ℤ) : 0 ≤ exactSim z1 z2 ∧ exactSim z1 z2 ≤ 1 := by
  unfold exactSim
  by_cases h : z1 = z2
  · rw [if_pos h]; norm_num
  · rw [if_neg h]; norm_num

/-- Claim C3: every per-field similarity used by the similarity feature
computer — Jaro-Winkler for the name fields, the Gaussian kernel for birth
year, the exact indicator for zipcode — is symmetric, reflexive with value
exactly 1, and bounded in [0,1]; each is a total Lean function, so it is
defined for every input pair including empty strings and equal values. -/
theorem claim_C3_similarity_contract :
    (∀ s1 s2 : List Char, jaroWinkler s1 s2 = jaroWinkler s2 s1) ∧
    (∀ s : List Char, jaroWinkler s s = 1) ∧
    (∀ s1 s2 : List Char, 0 ≤ jaroWinkler s1 s2 ∧ jaroWinkler s1 s2 ≤ 1) ∧
    (∀ y1 y2 : ℤ, birthyearSim y1 y2 = birthyearSim y2 y1) ∧
    (∀ y : ℤ, birthyearSim y y = 1) ∧
    (∀ y1 y2 : ℤ, 0 ≤ birthyearSim y1 y2 ∧ birthyearSim y1 y2 ≤ 1) ∧
    (∀ z1 z2 : ℤ, exactSim z1 z2 = exactSim z2 z1) ∧
    (∀ z : ℤ, exactSim z z = 1) ∧
    (∀ z1 z2 : ℤ, 0 ≤ exactSim z1 z2 ∧ exactSim z1 z2 ≤ 1) := by
  refine ⟨jaroWinkler_symm, jaroWinkler_self, jaroWinkler_bounds,
    fun y1 y2 => gaussSim_symm 0 2 y1 y2, birthyearSim_self,
    fun y1 y2 => ⟨le_of_lt (gaussSim_pos 0 2 y1 y2), gaussSim_le_one 0 2 y1 y2⟩,
    exactSim_symm, exactSim_self, exactSim_bounds⟩

end RecordLinkage
